import Mathlib

/-!
A shallow embedding in Lean 4 of the `structflag` Go package
(`struct_to_flags.go`): the struct flattener `Convert` /
`reflectStructToFlags` and the reflected value adapter
(`encodeString`, `decodeString`, `IsBoolFlag`), together with proofs of
the behavioural properties stated about them.

Modelling conventions:

* Go struct types are described by an association list from type names to
  field declaration lists (`envOf`); a field's shape is collapsed to the
  three cases the flattener distinguishes (`FTy`): leaf, directly nested
  struct, pointer to struct.  `settable` models `reflect.Value.CanSet`
  (exported and addressable).
* The flattener's recursion is given a fuel argument: one unit of fuel is
  consumed per processed field.  Go's recursion is unbounded, so
  "the Go call returns" is rendered as "some fuel makes the model return
  `some _`", and "the Go call recurses forever" as "the model returns
  `none` for every fuel".
* Machine integers are `Int`/`Nat` with explicit width checks
  (`fitsI`, `fitsU`), mirroring `reflect.Value.OverflowInt/OverflowUint`;
  `strconv.ParseInt/ParseUint` are modelled with their incremental
  overflow check (`goParseUintLoop`), which reports a range error on an
  overflowing digit run before a later invalid character is seen.
* Floating-point values are carried as their IEEE-754 bit patterns
  (`F32`, `F64`); the strconv/fmt decimal conversions for them are not
  reproduced but passed in as an abstract `FloatOps` bundle, with the
  documented round-trip contract (`FloatRT`) taken as a hypothesis where
  a theorem needs it.
* Pointers are addresses (indices) into an explicit heap (`List Prim`);
  `reflect.New` is modelled as appending a zero cell.
* The `encoding/json` document codec for structured leaves (slices, maps,
  nested structs used as leaf payloads) is kept abstract: decode/encode
  functions are parameters of the adapter model, and theorems about
  structured slots hold for every such codec.  The one JSON fragment the
  code depends on in a value-relevant way - decoding a single JSON
  quoted-string document, used by `decodeString`'s `reflect.String`
  case - is modelled concretely (`goStrDec`).
-/

namespace Structflag

/-- Shape of a Go struct field as the flattener distinguishes it:
a leaf (any kind that is neither a struct nor a pointer to a struct),
a directly nested struct with the given type name, or a pointer to a
struct with the given type name. -/
inductive FTy where
  | leaf : FTy
  | agg : String → FTy
  | ptrAgg : String → FTy
deriving DecidableEq

/-- Name of the struct type a field recurses into, if any. -/
def FTy.aggName? : FTy → Option String
  | .leaf => none
  | .agg t => some t
  | .ptrAgg t => some t

/-- One declared struct field: its name, whether `reflect.Value.CanSet`
holds for it (exported field of an addressable struct), and its shape. -/
structure FieldDecl where
  name : String
  settable : Bool
  ty : FTy
deriving DecidableEq

/-- Struct type environment: look a type name up in an association list of
declarations; unknown names have no fields. -/
def envOf (decls : List (String × List FieldDecl)) : String → List FieldDecl :=
  fun t =>
    match decls.find? (fun p => p.1 == t) with
    | some p => p.2
    | none => []

/-- The recursive walk of `reflectStructToFlags`, returning the list of
keys inserted into the output map, in insertion order.  For each settable
field it either records the joined path (leaf case) or recurses into the
field's struct type with the path extended by the separator (struct and
pointer-to-struct cases; a nil struct pointer is first allocated in Go,
which does not affect the produced keys).  Unsettable fields are skipped
before any of this, exactly as the `CanSet` guard does.  `fuel` bounds the
number of processed fields; `none` means the bound was hit. -/
def reflectStructToFlags (nameConv : String → String) (sep : String)
    (env : String → List FieldDecl) :
    Nat → String → List FieldDecl → Option (List String)
  | _, _, [] => some []
  | 0, _, _ :: _ => none
  | fuel + 1, pre, f :: rest =>
    if f.settable = false then
      reflectStructToFlags nameConv sep env fuel pre rest
    else
      match f.ty with
      | .leaf =>
        match reflectStructToFlags nameConv sep env fuel pre rest with
        | some ks => some ((pre ++ nameConv f.name) :: ks)
        | none => none
      | .agg t =>
        match reflectStructToFlags nameConv sep env fuel
            (pre ++ nameConv f.name ++ sep) (env t) with
        | some inner =>
          match reflectStructToFlags nameConv sep env fuel pre rest with
          | some ks => some (inner ++ ks)
          | none => none
        | none => none
      | .ptrAgg t =>
        match reflectStructToFlags nameConv sep env fuel
            (pre ++ nameConv f.name ++ sep) (env t) with
        | some inner =>
          match reflectStructToFlags nameConv sep env fuel pre rest with
          | some ks => some (inner ++ ks)
          | none => none
        | none => none

/-- Marks every field unsettable: when `Convert` receives a bare struct
value (not a reference), `reflect.ValueOf` yields a non-addressable value,
so `CanSet` is false for all of its fields. -/
def clearSettable (fields : List FieldDecl) : List FieldDecl :=
  fields.map fun f => { f with settable := false }

/-- Model of `Convert`: runs the walk on the root struct's fields with an
empty prefix.  `byRef` records whether the caller passed a reference to
the struct (the documented usage) or a bare struct value, in which case
no field is settable. -/
def Convert (nameConv : String → String) (sep : String)
    (env : String → List FieldDecl) (fuel : Nat) (byRef : Bool)
    (rootFields : List FieldDecl) : Option (List String) :=
  reflectStructToFlags nameConv sep env fuel ""
    (if byRef then rootFields else clearSettable rootFields)

/-- Spec-side description of the flattened key set, written from the
specification's words: every settable leaf field contributes exactly one
entry, its joined path; every settable aggregate-typed or
reference-to-aggregate-typed field contributes no entry of its own but
contributes the leaves of its struct type under the extended prefix;
unsettable fields contribute nothing.  Used only to compare with
`reflectStructToFlags`. -/
def specLeafPaths (nameConv : String → String) (sep : String)
    (env : String → List FieldDecl) :
    Nat → String → List FieldDecl → Option (List String)
  | _, _, [] => some []
  | fuel, pre, f :: rest =>
    let contrib : Option (List String) :=
      if f.settable = false then some []
      else
        match f.ty with
        | .leaf => some [pre ++ nameConv f.name]
        | .agg t =>
          match fuel with
          | 0 => none
          | m + 1 => specLeafPaths nameConv sep env m (pre ++ nameConv f.name ++ sep) (env t)
        | .ptrAgg t =>
          match fuel with
          | 0 => none
          | m + 1 => specLeafPaths nameConv sep env m (pre ++ nameConv f.name ++ sep) (env t)
    match contrib, (match fuel with
      | 0 => none
      | m + 1 => specLeafPaths nameConv sep env m pre rest) with
    | some ks, some tail => some (ks ++ tail)
    | _, _ => none

/-- Fields of the example root aggregate from the specification:
`{Debug bool, InputFile *string, Extra *struct{WrapLines bool, Pages []int}}`.
`bool`, `*string` and `[]int` are leaves for the flattener. -/
def argsFields : List FieldDecl :=
  [⟨"Debug", true, .leaf⟩, ⟨"InputFile", true, .leaf⟩, ⟨"Extra", true, .ptrAgg "extra"⟩]

/-- Fields of the nested example aggregate. -/
def extraFields : List FieldDecl :=
  [⟨"WrapLines", true, .leaf⟩, ⟨"Pages", true, .leaf⟩]

/-- Type environment of the example program. -/
def exampleDecls : List (String × List FieldDecl) :=
  [("args", argsFields), ("extra", extraFields)]

/-- A self-referential struct type: `type Node struct { Next *Node }`. -/
def nodeFields : List FieldDecl := [⟨"Next", true, .ptrAgg "Node"⟩]

/-- Type environment containing only the self-referential `Node` type. -/
def cyclicDecls : List (String × List FieldDecl) := [("Node", nodeFields)]

/-- Rank function witnessing that the example type environment is
acyclic: the root type sits above the nested one. -/
def exampleRank (t : String) : Nat := if t = "args" then 1 else 0

/-- Checks that a field's shape only recurses into types of rank below
`bound`. -/
def rankOk (rank : String → Nat) (bound : Nat) : FTy → Bool
  | .leaf => true
  | .agg t => decide (rank t < bound)
  | .ptrAgg t => decide (rank t < bound)

/-- A type environment is acyclic when some rank function decreases along
every struct or pointer-to-struct field edge. -/
def AcyclicL (decls : List (String × List FieldDecl)) (rank : String → Nat) : Prop :=
  ∀ p ∈ decls, ∀ f ∈ p.2, rankOk rank (rank p.1) f.ty = true

instance instDecidableAcyclicL (decls : List (String × List FieldDecl))
    (rank : String → Nat) : Decidable (AcyclicL decls rank) :=
  inferInstanceAs (Decidable (∀ p ∈ decls, ∀ f ∈ p.2, rankOk rank (rank p.1) f.ty = true))

/-- The walk computes exactly the leaf-path list described by the
specification, for every converter configuration, fuel, prefix and field
list. -/
theorem flatten_eq_spec (nameConv : String → String) (sep : String)
    (env : String → List FieldDecl) :
    ∀ fuel pre fields,
      reflectStructToFlags nameConv sep env fuel pre fields =
        specLeafPaths nameConv sep env fuel pre fields := by
  intro fuel
  induction fuel with
  | zero =>
    intro pre fields
    cases fields with
    | nil => rfl
    | cons f rest =>
      obtain ⟨nm, st, ty⟩ := f
      cases st <;> cases ty <;> simp [reflectStructToFlags, specLeafPaths]
  | succ n ih =>
    intro pre fields
    cases fields with
    | nil => rfl
    | cons f rest =>
      obtain ⟨nm, st, ty⟩ := f
      cases st with
      | false =>
        cases ty <;>
          simp only [reflectStructToFlags, specLeafPaths, ih, reduceIte] <;>
          cases specLeafPaths nameConv sep env n pre rest <;> simp
      | true =>
        cases ty with
        | leaf =>
          simp only [reflectStructToFlags, specLeafPaths, ih, reduceIte]
          cases specLeafPaths nameConv sep env n pre rest <;> simp
        | agg t =>
          simp only [reflectStructToFlags, specLeafPaths, ih, reduceIte]
          cases specLeafPaths nameConv sep env n (pre ++ nameConv nm ++ sep) (env t) <;>
            cases specLeafPaths nameConv sep env n pre rest <;> simp
        | ptrAgg t =>
          simp only [reflectStructToFlags, specLeafPaths, ih, reduceIte]
          cases specLeafPaths nameConv sep env n (pre ++ nameConv nm ++ sep) (env t) <;>
            cases specLeafPaths nameConv sep env n pre rest <;> simp

/-- Flattening a struct all of whose fields are unsettable inserts no key
and needs no recursion: every field is skipped by the `CanSet` guard. -/
theorem flatten_clearSettable (nameConv : String → String) (sep : String)
    (env : String → List FieldDecl) :
    ∀ fields fuel pre, fields.length ≤ fuel →
      reflectStructToFlags nameConv sep env fuel pre (clearSettable fields) = some [] := by
  intro fields
  induction fields with
  | nil => intro fuel pre _; cases fuel <;> rfl
  | cons f rest ih =>
    intro fuel pre hle
    cases fuel with
    | zero => simp at hle
    | succ n =>
      simp only [clearSettable, List.map_cons, reflectStructToFlags, if_pos rfl]
      exact ih n pre (by simpa using Nat.le_of_succ_le_succ hle)

/-- Larger fuel preserves a successful flattening result. -/
theorem flatten_fuel_mono (nameConv : String → String) (sep : String)
    (env : String → List FieldDecl) :
    ∀ fuel pre fields ks,
      reflectStructToFlags nameConv sep env fuel pre fields = some ks →
      reflectStructToFlags nameConv sep env (fuel + 1) pre fields = some ks := by
  intro fuel
  induction fuel with
  | zero =>
    intro pre fields ks h
    cases fields with
    | nil => exact h
    | cons f rest => exact absurd h (by simp [reflectStructToFlags])
  | succ n ih =>
    intro pre fields ks h
    cases fields with
    | nil => exact h
    | cons f rest =>
      obtain ⟨nm, st, ty⟩ := f
      cases st with
      | false =>
        simp only [reflectStructToFlags, reduceIte] at h ⊢
        exact ih pre rest ks h
      | true =>
        cases ty with
        | leaf =>
          simp only [reflectStructToFlags, reduceIte] at h ⊢
          cases htail : reflectStructToFlags nameConv sep env n pre rest with
          | none => rw [htail] at h; exact absurd h (by simp)
          | some tail => rw [htail] at h; rw [ih pre rest tail htail]; exact h
        | agg t =>
          simp only [reflectStructToFlags, reduceIte] at h ⊢
          cases hin : reflectStructToFlags nameConv sep env n (pre ++ nameConv nm ++ sep)
              (env t) with
          | none => rw [hin] at h; exact absurd h (by simp)
          | some inner =>
            rw [hin] at h
            rw [ih (pre ++ nameConv nm ++ sep) (env t) inner hin]
            cases htail : reflectStructToFlags nameConv sep env n pre rest with
            | none => rw [htail] at h; exact absurd h (by simp)
            | some tail => rw [htail] at h; rw [ih pre rest tail htail]; exact h
        | ptrAgg t =>
          simp only [reflectStructToFlags, reduceIte] at h ⊢
          cases hin : reflectStructToFlags nameConv sep env n (pre ++ nameConv nm ++ sep)
              (env t) with
          | none => rw [hin] at h; exact absurd h (by simp)
          | some inner =>
            rw [hin] at h
            rw [ih (pre ++ nameConv nm ++ sep) (env t) inner hin]
            cases htail : reflectStructToFlags nameConv sep env n pre rest with
            | none => rw [htail] at h; exact absurd h (by simp)
            | some tail => rw [htail] at h; rw [ih pre rest tail htail]; exact h

/-- Fuel monotonicity, stated for any larger fuel. -/
theorem flatten_fuel_mono_le (nameConv : String → String) (sep : String)
    (env : String → List FieldDecl) {fuel fuel' : Nat} (hle : fuel ≤ fuel')
    {pre : String} {fields : List FieldDecl} {ks : List String}
    (h : reflectStructToFlags nameConv sep env fuel pre fields = some ks) :
    reflectStructToFlags nameConv sep env fuel' pre fields = some ks := by
  induction hle with
  | refl => exact h
  | step _ ih => exact flatten_fuel_mono nameConv sep env _ _ _ _ ih

/-- With a rank function that bounds every struct edge reachable through
`env`, flattening any field list whose struct edges stay below the rank
bound succeeds for some fuel. -/
theorem flatten_total (nameConv : String → String) (sep : String)
    (env : String → List FieldDecl) (rank : String → Nat)
    (henv : ∀ t, ∀ f ∈ env t, rankOk rank (rank t) f.ty = true) :
    ∀ r fields, (∀ f ∈ fields, rankOk rank r f.ty = true) →
      ∀ pre, ∃ fuel ks, reflectStructToFlags nameConv sep env fuel pre fields = some ks := by
  intro r
  induction r using Nat.strong_induction_on with
  | _ r ihr =>
    intro fields
    induction fields with
    | nil => exact fun _ pre => ⟨0, [], rfl⟩
    | cons f rest ihf =>
      intro hb pre
      obtain ⟨f1, ks1, h1⟩ := ihf (fun g hg => hb g (List.mem_cons_of_mem f hg)) pre
      have hbf := hb f (List.mem_cons_self f rest)
      obtain ⟨nm, st, ty⟩ := f
      cases st with
      | false =>
        exact ⟨f1 + 1, ks1, by simp only [reflectStructToFlags, reduceIte]; exact h1⟩
      | true =>
        cases ty with
        | leaf =>
          refine ⟨f1 + 1, (pre ++ nameConv nm) :: ks1, ?_⟩
          simp only [reflectStructToFlags, h1]
          rfl
        | agg t =>
          have hrt : rank t < r := by simpa [rankOk] using hbf
          obtain ⟨f2, ks2, h2⟩ :=
            ihr (rank t) hrt (env t) (henv t) (pre ++ nameConv nm ++ sep)
          refine ⟨max f1 f2 + 1, ks2 ++ ks1, ?_⟩
          have h1' := flatten_fuel_mono_le nameConv sep env (Nat.le_max_left f1 f2) h1
          have h2' := flatten_fuel_mono_le nameConv sep env (Nat.le_max_right f1 f2) h2
          simp only [reflectStructToFlags, h1', h2']
          rfl
        | ptrAgg t =>
          have hrt : rank t < r := by simpa [rankOk] using hbf
          obtain ⟨f2, ks2, h2⟩ :=
            ihr (rank t) hrt (env t) (henv t) (pre ++ nameConv nm ++ sep)
          refine ⟨max f1 f2 + 1, ks2 ++ ks1, ?_⟩
          have h1' := flatten_fuel_mono_le nameConv sep env (Nat.le_max_left f1 f2) h1
          have h2' := flatten_fuel_mono_le nameConv sep env (Nat.le_max_right f1 f2) h2
          simp only [reflectStructToFlags, h1', h2']
          rfl

/-- An acyclic association-list environment bounds the rank of every
struct edge of every looked-up field list. -/
theorem envOf_rankOk (decls : List (String × List FieldDecl)) (rank : String → Nat)
    (h : AcyclicL decls rank) :
    ∀ t, ∀ f ∈ envOf decls t, rankOk rank (rank t) f.ty = true := by
  intro t f hf
  unfold envOf at hf
  cases hfind : decls.find? (fun p => p.1 == t) with
  | none => rw [hfind] at hf; simp at hf
  | some p =>
    rw [hfind] at hf
    have hmem := List.mem_of_find?_eq_some hfind
    have hpred : p.1 = t := by simpa using List.find?_some hfind
    rw [← hpred]
    exact h p hmem f hf

/-- On the self-referential `Node` type the walk exhausts any fuel:
every pointer-to-struct field is unconditionally allocated and recursed
into, so the recursion never bottoms out. -/
theorem cyclic_flatten_none :
    ∀ fuel pre, reflectStructToFlags id "-" (envOf cyclicDecls) fuel pre nodeFields = none := by
  intro fuel
  induction fuel with
  | zero => intro pre; rfl
  | succ n ih =>
    intro pre
    have henv : envOf cyclicDecls "Node" = nodeFields := rfl
    have ih' : ∀ p : String, reflectStructToFlags id "-" (envOf cyclicDecls) n p
        [⟨"Next", true, FTy.ptrAgg "Node"⟩] = none := by
      intro p
      simpa [nodeFields] using ih p
    simp only [nodeFields, reflectStructToFlags, henv, ih']
    rfl

/-- C1: for every root aggregate passed by reference, the key list of
`Convert` is exactly the list of joined paths of the settable leaf fields
obtained by transitively expanding settable struct-typed and
pointer-to-struct-typed fields (first conjunct, for all configurations,
prefixes and field lists); in particular the example aggregate
`{Debug bool, InputFile *string, Extra *struct{WrapLines bool, Pages []int}}`
with default options yields exactly the four keys `Debug`, `InputFile`,
`Extra-WrapLines`, `Extra-Pages`, each exactly once. -/
theorem c1_flatten_key_set :
    (∀ (nameConv : String → String) (sep : String) (env : String → List FieldDecl)
      (fuel : Nat) (pre : String) (fields : List FieldDecl),
      reflectStructToFlags nameConv sep env fuel pre fields =
        specLeafPaths nameConv sep env fuel pre fields) ∧
    Convert id "-" (envOf exampleDecls) 20 true argsFields =
      some ["Debug", "InputFile", "Extra-WrapLines", "Extra-Pages"] ∧
    ["Debug", "InputFile", "Extra-WrapLines", "Extra-Pages"].Nodup :=
  ⟨fun nameConv sep env => flatten_eq_spec nameConv sep env, by decide, by decide⟩

/-- C8 counterexample: on the self-referential aggregate type
`type Node struct { Next *Node }`, `Convert` never returns: the model
yields `none` for every fuel, i.e. the Go recursion is infinite, so the
claim that `Convert` terminates on every root aggregate including cyclic
reference structures is false. -/
theorem c8_counterexample :
    ¬ ∃ fuel, (Convert id "-" (envOf cyclicDecls) fuel true nodeFields).isSome = true := by
  rintro ⟨fuel, h⟩
  have : Convert id "-" (envOf cyclicDecls) fuel true nodeFields =
      reflectStructToFlags id "-" (envOf cyclicDecls) fuel "" nodeFields := rfl
  rw [this, cyclic_flatten_none fuel ""] at h
  exact absurd h (by simp)

/-- C8 amended: `Convert` terminates (some fuel suffices) on every root
aggregate whose struct-type reference graph is acyclic, as witnessed by a
rank function decreasing along struct and pointer-to-struct edges; on
self-referential types the traversal recurses forever. -/
theorem c8_acyclic_terminates (nameConv : String → String) (sep : String)
    (decls : List (String × List FieldDecl)) (rank : String → Nat)
    (hacy : AcyclicL decls rank) (rootT : String) :
    ∃ fuel ks,
      Convert nameConv sep (envOf decls) fuel true (envOf decls rootT) = some ks := by
  obtain ⟨fuel, ks, h⟩ := flatten_total nameConv sep (envOf decls) rank
    (envOf_rankOk decls rank hacy) (rank rootT) (envOf decls rootT)
    (envOf_rankOk decls rank hacy rootT) ""
  exact ⟨fuel, ks, h⟩

/-- Witness for the amended C8 theorem: the example environment is
acyclic under `exampleRank` and flattening its root succeeds. -/
theorem c8_witness :
    AcyclicL exampleDecls exampleRank ∧
    ∃ fuel ks,
      Convert id "-" (envOf exampleDecls) fuel true (envOf exampleDecls "args") = some ks :=
  ⟨by decide, c8_acyclic_terminates id "-" exampleDecls exampleRank (by decide) "args"⟩

/-- C10: calling `Convert` with a bare aggregate value rather than a
reference does not crash: since `reflect.ValueOf` on a bare struct yields
a non-addressable value, every field fails the `CanSet` guard, and the
call returns an empty mapping without mutating anything. -/
theorem c10_bare_value (nameConv : String → String) (sep : String)
    (env : String → List FieldDecl) (fields : List FieldDecl) (fuel : Nat)
    (h : fields.length ≤ fuel) :
    Convert nameConv sep env fuel false fields = some [] :=
  flatten_clearSettable nameConv sep env fields fuel "" h

/-- Witness for C10 at the example aggregate passed by value. -/
theorem c10_witness :
    argsFields.length ≤ 3 ∧ Convert id "-" (envOf exampleDecls) 3 false argsFields = some [] :=
  ⟨by decide, c10_bare_value id "-" (envOf exampleDecls) argsFields 3 (by decide)⟩

/-! ## The reflected value adapter

Model of `NewReflectedValue`'s behaviour: `encodeString`, `decodeString`
and `IsBoolFlag`.  A leaf slot is either a direct primitive or a
single-level pointer to a primitive; pointers are addresses into an
explicit heap.  Widths of Go's integer kinds (`int8/16/32/64`, `int`,
`uint8/16/32/64`, `uint`, `uintptr`; `int`/`uint`/`uintptr` are 64-bit on
the platforms Go targets here) are the four `IW` values. -/

/-- Bit width of a Go integer kind. -/
inductive IW where
  | w8 : IW
  | w16 : IW
  | w32 : IW
  | w64 : IW
deriving DecidableEq

/-- Number of bits of an integer width. -/
def IW.bits : IW → Nat
  | .w8 => 8
  | .w16 => 16
  | .w32 => 32
  | .w64 => 64

/-- Abstract denotation of a structured Go value (slice, map, nested
struct used as a leaf): the `encoding/json` codec for these is an external
collaborator of the code under test, so its values are kept opaque. -/
abbrev SVal := String

/-- A Go `float64` value, identified with its 64-bit IEEE-754 pattern;
the numeric semantics lives in the abstract `FloatOps` bundle. -/
structure F64 where
  bits : Nat
deriving DecidableEq

/-- A Go `float32` value, identified with its 32-bit IEEE-754 pattern. -/
structure F32 where
  bits : Nat
deriving DecidableEq

/-- Error channel of `Set`: strconv's `ErrSyntax` (and JSON syntax or
shape errors) versus `ErrRange` (including `OverflowInt/OverflowUint/
OverflowFloat` failures). -/
inductive DErr where
  | parse : DErr
  | range : DErr
deriving DecidableEq

/-- The strconv/fmt floating-point primitives that `decodeString` and
`encodeString` call, kept abstract because IEEE-754 decimal conversion
(shortest-form formatting and correctly rounded parsing) is not
reproduced inside this model: `parse64` is `strconv.ParseFloat(s, 64)`
(syntax error on malformed text, range error on overflow), `overflow32`
is `reflect.Value.OverflowFloat` on a `float32` target, `to32` is the
`SetFloat` narrowing conversion, and `fmt64`/`fmt32` are `fmt.Sprint` of
the respective widths.  Theorems quantify over every such bundle; where
a property depends on the codec's numeric behaviour, the documented
strconv round-trip contract is taken as a hypothesis at the value in
question (`FloatRT`). -/
structure FloatOps where
  parse64 : String → Except DErr F64
  overflow32 : F64 → Bool
  to32 : F64 → F32
  fmt64 : F64 → String
  fmt32 : F32 → String

/-- A concrete trivial bundle for witnesses: it parses only the rendering
of the zero `float64`, which it round-trips. -/
def trivialFloatOps : FloatOps where
  parse64 := fun s => if s = "0" then .ok ⟨0⟩ else .error .parse
  overflow32 := fun _ => false
  to32 := fun _ => ⟨0⟩
  fmt64 := fun _ => "0"
  fmt32 := fun _ => "0"

/-- Kind of a leaf slot's target, as `decodeString` dispatches on it. -/
inductive PrimTy where
  | bool : PrimTy
  | int : IW → PrimTy
  | uint : IW → PrimTy
  | f32 : PrimTy
  | f64 : PrimTy
  | str : PrimTy
  | structured : PrimTy
deriving DecidableEq

/-- A primitive (or structured) Go value held in a leaf slot or heap
cell. -/
inductive Prim where
  | bool : Bool → Prim
  | int : IW → Int → Prim
  | uint : IW → Nat → Prim
  | f32 : F32 → Prim
  | f64 : F64 → Prim
  | str : String → Prim
  | structured : SVal → Prim
deriving DecidableEq

/-- Kind of a primitive value. -/
def Prim.ty : Prim → PrimTy
  | .bool _ => .bool
  | .int w _ => .int w
  | .uint w _ => .uint w
  | .f32 _ => .f32
  | .f64 _ => .f64
  | .str _ => .str
  | .structured _ => .structured

/-- Go zero value of a kind, as `reflect.New` produces it (the zero bit
pattern is the float zero). -/
def PrimTy.zero : PrimTy → Prim
  | .bool => .bool false
  | .int w => .int w 0
  | .uint w => .uint w 0
  | .f32 => .f32 ⟨0⟩
  | .f64 => .f64 ⟨0⟩
  | .str => .str ""
  | .structured => .structured ""

/-- A signed value fits a width: `reflect.Value.OverflowInt` is false. -/
def fitsI (bits : Nat) (v : Int) : Bool :=
  decide (-(2 ^ (bits - 1)) ≤ v) && decide (v < 2 ^ (bits - 1))

/-- An unsigned value fits a width: `reflect.Value.OverflowUint` is
false. -/
def fitsU (bits : Nat) (v : Nat) : Bool :=
  decide (v < 2 ^ bits)

/-- Decimal digit character for a value below ten. -/
def digitChar : Nat → Char
  | 0 => '0'
  | 1 => '1'
  | 2 => '2'
  | 3 => '3'
  | 4 => '4'
  | 5 => '5'
  | 6 => '6'
  | 7 => '7'
  | 8 => '8'
  | _ => '9'

/-- Is the character an ASCII decimal digit, as strconv checks. -/
def isDigitCh (c : Char) : Bool :=
  decide (48 ≤ c.toNat) && decide (c.toNat ≤ 57)

/-- Reference base-10 evaluation of a digit string, accumulating; `none`
on the first non-digit.  Together with `decDigitsVal`/`intGrammar` this
is the spec-side numeral grammar used to state the theorems; the faithful
model of strconv's incremental digit loop is `goParseUintLoop` below. -/
def decValAcc (acc : Nat) : List Char → Option Nat
  | [] => some acc
  | c :: r => if isDigitCh c then decValAcc (acc * 10 + (c.toNat - 48)) r else none

/-- Value of a non-empty all-digit string; `none` on empty input or any
non-digit, strconv's `ErrSyntax` condition for an unsigned numeral. -/
def decDigitsVal : List Char → Option Nat
  | [] => none
  | c :: r => decValAcc 0 (c :: r)

/-- Builds the decimal digits of `n` in front of `acc`, most significant
first; `fuel` only serves structural recursion and `n + 1` is always
enough. -/
def natToDecCore : Nat → Nat → List Char → List Char
  | 0, _, acc => acc
  | fuel + 1, n, acc =>
    if n < 10 then digitChar n :: acc
    else natToDecCore fuel (n / 10) (digitChar (n % 10) :: acc)

/-- Decimal digits of a natural number, as `fmt.Sprint` renders Go's
unsigned integers. -/
def natToDec (n : Nat) : List Char := natToDecCore (n + 1) n []

/-- Decimal rendering of a signed integer, as `fmt.Sprint` renders Go's
signed integers. -/
def intToDecL (v : Int) : List Char :=
  if v < 0 then '-' :: natToDec v.natAbs else natToDec v.toNat

/-- Reference signed base-10 numeral grammar: an optional sign followed
by a non-empty digit string, yielding the exact value.  Used to state
which texts are well-formed signed numerals; `goParseInt64` below is the
faithful model of `strconv.ParseInt`. -/
def intGrammar : List Char → Option Int
  | [] => none
  | c :: r =>
    if c = '+' then (decDigitsVal r).map (fun n => (n : Int))
    else if c = '-' then (decDigitsVal r).map (fun n => -(n : Int))
    else (decDigitsVal (c :: r)).map (fun n => (n : Int))

/-- Value of the longest leading run of decimal digits, accumulated onto
`acc` the way strconv's digit loop does (exact here, no clamping); stops
at the first non-digit. -/
def digitPrefixVal (acc : Nat) : List Char → Nat
  | [] => acc
  | c :: r => if isDigitCh c then digitPrefixVal (acc * 10 + (c.toNat - 48)) r else acc

/-- The leading digit run of the text overflows `uint64` - the condition
under which `strconv.ParseUint`'s incremental check reports `ErrRange`
before a later invalid character is ever examined. -/
def uintPrefixOverflow (l : List Char) : Bool :=
  decide (2 ^ 64 - 1 < digitPrefixVal 0 l)

/-- The same condition after `strconv.ParseInt` strips one leading
sign. -/
def intPrefixOverflow : List Char → Bool
  | [] => false
  | c :: r =>
    if c = '+' ∨ c = '-' then uintPrefixOverflow r else uintPrefixOverflow (c :: r)

/-- The digit loop of `strconv.ParseUint` (base 10, bitSize 64), with the
accumulator kept exact: each character is first classified (immediate
`ErrSyntax` on a non-digit), then the two incremental overflow checks
run - `n >= cutoff` with `cutoff = maxUint64/10 + 1` before the multiply,
and `n1 > maxUint64` after the add - so an overflowing digit run reports
`ErrRange` before any later invalid character is seen. -/
def goParseUintLoop (n : Nat) : List Char → Except DErr Nat
  | [] => .ok n
  | c :: r =>
    if isDigitCh c then
      if (2 ^ 64 - 1) / 10 + 1 ≤ n then .error .range
      else if 2 ^ 64 - 1 < n * 10 + (c.toNat - 48) then .error .range
      else goParseUintLoop (n * 10 + (c.toNat - 48)) r
    else .error .parse

/-- Behaviour of `strconv.ParseUint(s, 10, 64)`: syntax error on the
empty string, then the incremental digit loop (no sign is accepted). -/
def goParseUint64 : List Char → Except DErr Nat
  | [] => .error .parse
  | c :: r => goParseUintLoop 0 (c :: r)

/-- Behaviour of `strconv.ParseInt(s, 10, 64)`: strip one optional sign,
run `ParseUint` at 64 bits, then apply the signed cutoff `1 << 63`.  A
range error from the unsigned parse propagates as a range error here: the
code only short-circuits on non-range errors, and the clamped magnitude
`maxUint64` always trips the signed cutoff. -/
def goParseInt64 : List Char → Except DErr Int
  | [] => .error .parse
  | c :: r =>
    let neg : Bool := c = '-'
    let digits : List Char := if c = '+' ∨ c = '-' then r else c :: r
    match goParseUint64 digits with
    | .error e => .error e
    | .ok un =>
      if neg = false then
        if 2 ^ 63 ≤ un then .error .range else .ok (un : Int)
      else
        if 2 ^ 63 < un then .error .range else .ok (-(un : Int))

/-- Behaviour of `strconv.ParseBool`: exactly the twelve tokens of its
switch are accepted. -/
def goParseBool (s : String) : Option Bool :=
  if s = "1" ∨ s = "t" ∨ s = "T" ∨ s = "true" ∨ s = "TRUE" ∨ s = "True" then some true
  else if s = "0" ∨ s = "f" ∨ s = "F" ∨ s = "false" ∨ s = "FALSE" ∨ s = "False" then
    some false
  else none

/-- JSON whitespace, as `encoding/json` skips around a document. -/
def jsonWS (c : Char) : Bool :=
  c = ' ' || c = Char.ofNat 9 || c = Char.ofNat 10 || c = Char.ofNat 13

/-- Drops leading JSON whitespace. -/
def skipWS : List Char → List Char
  | [] => []
  | c :: r => if jsonWS c then skipWS r else c :: r

/-- Hexadecimal digit value, as `encoding/json`'s `getu4` accepts. -/
def hexVal (c : Char) : Option Nat :=
  if 48 ≤ c.toNat ∧ c.toNat ≤ 57 then some (c.toNat - 48)
  else if 97 ≤ c.toNat ∧ c.toNat ≤ 102 then some (c.toNat - 87)
  else if 65 ≤ c.toNat ∧ c.toNat ≤ 70 then some (c.toNat - 55)
  else none

/-- Single-character JSON escapes. -/
def escChar (c : Char) : Option Char :=
  if c = '\"' then some '\"'
  else if c = '\\' then some '\\'
  else if c = '/' then some '/'
  else if c = 'b' then some (Char.ofNat 8)
  else if c = 'f' then some (Char.ofNat 12)
  else if c = 'n' then some (Char.ofNat 10)
  else if c = 'r' then some (Char.ofNat 13)
  else if c = 't' then some (Char.ofNat 9)
  else none

/-- Body of a JSON string literal after the opening quote: returns the
decoded content and the input remaining after the closing quote.
Faithful to `encoding/json`'s scanner plus `unquoteBytes`: raw control
characters and invalid escapes fail; `\uXXXX` decodes a UTF-16 unit,
a high surrogate merges with an immediately following low surrogate
escape and any lone surrogate becomes U+FFFD.  `fuel` only serves
structural recursion: every step consumes at least one input character
and exactly one unit of fuel, so the `length + 1` supplied by `goStrDec`
never runs out. -/
def jsonStrBody : Nat → List Char → Option (List Char × List Char)
  | 0, _ => none
  | _ + 1, [] => none
  | fuel + 1, c :: r =>
    if c = '\"' then some ([], r)
    else if c = '\\' then
      match r with
      | [] => none
      | 'u' :: h1 :: h2 :: h3 :: h4 :: r2 =>
        match hexVal h1, hexVal h2, hexVal h3, hexVal h4 with
        | some a, some b, some c4, some d =>
          let v := ((a * 16 + b) * 16 + c4) * 16 + d
          if 0xD800 ≤ v ∧ v < 0xDC00 then
            match r2 with
            | '\\' :: 'u' :: k1 :: k2 :: k3 :: k4 :: r3 =>
              match hexVal k1, hexVal k2, hexVal k3, hexVal k4 with
              | some e, some f, some g, some hx =>
                let w := ((e * 16 + f) * 16 + g) * 16 + hx
                if 0xDC00 ≤ w ∧ w < 0xE000 then
                  (jsonStrBody fuel r3).map fun p =>
                    (Char.ofNat (0x10000 + (v - 0xD800) * 0x400 + (w - 0xDC00)) :: p.1, p.2)
                else
                  (jsonStrBody fuel r2).map fun p => (Char.ofNat 0xFFFD :: p.1, p.2)
              | _, _, _, _ => (jsonStrBody fuel r2).map fun p => (Char.ofNat 0xFFFD :: p.1, p.2)
            | _ => (jsonStrBody fuel r2).map fun p => (Char.ofNat 0xFFFD :: p.1, p.2)
          else if 0xDC00 ≤ v ∧ v < 0xE000 then
            (jsonStrBody fuel r2).map fun p => (Char.ofNat 0xFFFD :: p.1, p.2)
          else
            (jsonStrBody fuel r2).map fun p => (Char.ofNat v :: p.1, p.2)
        | _, _, _, _ => none
      | e :: r2 =>
        match escChar e with
        | some ec => (jsonStrBody fuel r2).map fun p => (ec :: p.1, p.2)
        | none => none
    else if c.toNat < 32 then none
    else (jsonStrBody fuel r).map fun p => (c :: p.1, p.2)

/-- Behaviour of `json.Unmarshal(data, &s)` for a `string` target: the
whole input must be one JSON string literal document surrounded only by
whitespace; yields its decoded content.  `none` is any `Unmarshal`
error (including a document of non-string type). -/
def goStrDec (l : List Char) : Option (List Char) :=
  match skipWS l with
  | [] => none
  | c :: r =>
    if c = '\"' then
      match jsonStrBody (l.length + 1) r with
      | some (content, rest) =>
        match skipWS rest with
        | [] => some content
        | _ :: _ => none
      | none => none
    else none

/-- Heap of allocated primitive cells; a pointer is an index into it.
`reflect.New` appends a fresh zero cell. -/
abbrev Heap := List Prim

/-- A leaf slot bound by a reflected value adapter: either a direct
primitive field, or a single-level pointer field carrying its target kind
and a current address (`none` is Go's nil). -/
inductive Slot where
  | prim : Prim → Slot
  | ptr : PrimTy → Option Nat → Slot
deriving DecidableEq

/-- Value observable through a slot: the primitive itself, or the heap
cell a non-nil pointer designates (`none` for nil or a dangling
address). -/
def obsVal : Slot → Heap → Option Prim
  | .prim p, _ => some p
  | .ptr _ none, _ => none
  | .ptr _ (some a), h => h[a]?

/-- Pointer targets of a slot stay inside the heap. -/
def SlotWF : Slot → Heap → Prop
  | .prim _, _ => True
  | .ptr _ none, _ => True
  | .ptr _ (some a), h => a < h.length

instance instDecidableSlotWF (sl : Slot) (h : Heap) : Decidable (SlotWF sl h) := by
  cases sl with
  | prim p => exact isTrue trivial
  | ptr ty a =>
    cases a with
    | none => exact isTrue trivial
    | some a => exact Nat.decLt a h.length

/-- The non-pointer dispatch of `decodeString`, parameterised by the
abstract `encoding/json` document decoder `jd` used for structured kinds:

* `reflect.Bool`: `strconv.ParseBool`;
* `reflect.Int*`: `strconv.ParseInt(s, 10, 64)` then `OverflowInt`;
* `reflect.Uint*`/`Uintptr`: `strconv.ParseUint(s, 10, 64)` then
  `OverflowUint`;
* `reflect.Float32`/`Float64`: `strconv.ParseFloat(s, 64)` then
  `OverflowFloat` (false for a 64-bit target) then `SetFloat`;
* `reflect.String`: try the input as one JSON string document first and
  fall back to the verbatim text;
* other kinds: `json.Unmarshal` into a fresh value of the slot type. -/
def decodePrim (fops : FloatOps) (jd : String → Option SVal) (ty : PrimTy) (s : String) :
    Except DErr Prim :=
  match ty with
  | .bool =>
    match goParseBool s with
    | some b => .ok (.bool b)
    | none => .error .parse
  | .int w =>
    match goParseInt64 s.data with
    | .error e => .error e
    | .ok v => if fitsI w.bits v then .ok (.int w v) else .error .range
  | .uint w =>
    match goParseUint64 s.data with
    | .error e => .error e
    | .ok v => if fitsU w.bits v then .ok (.uint w v) else .error .range
  | .f32 =>
    match fops.parse64 s with
    | .error e => .error e
    | .ok f => if fops.overflow32 f then .error .range else .ok (.f32 (fops.to32 f))
  | .f64 =>
    match fops.parse64 s with
    | .error e => .error e
    | .ok f => .ok (.f64 f)
  | .str =>
    .ok (.str (match goStrDec s.data with
      | some content => String.mk content
      | none => s))
  | .structured =>
    match jd s with
    | some v => .ok (.structured v)
    | none => .error .parse

/-- Model of `decodeString` (the `Set` path) as a state transformer on the
slot and the heap, returning the error (if any) alongside the state after
the call.  The pointer case mirrors the code line by line: `reflect.New`
allocates a fresh zero cell, decoding writes the parsed value into it,
and then either the fresh address is stored into a nil slot or the value
is copied into the already-referenced cell, leaving the stored address
untouched.  On any parse failure nothing observable changes (the fresh
cell stays unreachable garbage). -/
def decodeString (fops : FloatOps) (jd : String → Option SVal) (s : String) :
    Slot → Heap → Option DErr × Slot × Heap
  | .prim p, h =>
    match decodePrim fops jd p.ty s with
    | .ok q => (none, .prim q, h)
    | .error e => (some e, .prim p, h)
  | .ptr ty r, h =>
    let a := h.length
    let h1 := h ++ [ty.zero]
    match decodePrim fops jd ty s with
    | .error e => (some e, .ptr ty r, h1)
    | .ok q =>
      match r with
      | none => (none, .ptr ty (some a), h1.set a q)
      | some a0 => (none, .ptr ty (some a0), (h1.set a q).set a0 q)

/-- The non-pointer rendering of `encodeString`, parameterised by the
abstract `encoding/json` encoder `je` for structured kinds (whose
failure, `none`, is the `panic` branch of the code): primitives print in
their canonical `fmt.Sprint` form. -/
def encodePrim (fops : FloatOps) (je : SVal → Option String) : Prim → Option String
  | .bool b => some (if b then "true" else "false")
  | .int _ v => some (String.mk (intToDecL v))
  | .uint _ v => some (String.mk (natToDec v))
  | .f32 g => some (fops.fmt32 g)
  | .f64 f => some (fops.fmt64 f)
  | .str s => some s
  | .structured v => je v

/-- Model of `encodeString` (the `String` path): a nil pointer renders as
the empty string, a non-nil pointer renders its target cell. -/
def encodeString (fops : FloatOps) (je : SVal → Option String) : Slot → Heap → Option String
  | .prim p, _ => encodePrim fops je p
  | .ptr _ none, _ => some ""
  | .ptr _ (some a), h =>
    match h[a]? with
    | some p => encodePrim fops je p
    | none => none

/-- Model of `IsBoolFlag`:
`reflect.Indirect(thiz.target).Kind() == reflect.Bool`.  For a nil
pointer slot, `reflect.Indirect` yields the zero `Value` whose kind is
`Invalid`, not `Bool`. -/
def IsBoolFlag : Slot → Bool
  | .prim (.bool _) => true
  | .prim _ => false
  | .ptr _ none => false
  | .ptr ty (some _) => ty = PrimTy.bool

/-- Fitting a narrow signed width implies fitting 64 bits. -/
theorem fitsI_mono (w : IW) (v : Int) (h : fitsI w.bits v = true) : fitsI 64 v = true := by
  cases w <;>
    simp only [fitsI, IW.bits, Bool.and_eq_true, decide_eq_true_eq] at h ⊢ <;>
    norm_num at h ⊢ <;> omega

/-- Fitting a narrow unsigned width implies fitting 64 bits. -/
theorem fitsU_mono (w : IW) (v : Nat) (h : fitsU w.bits v = true) : fitsU 64 v = true := by
  cases w <;>
    simp only [fitsU, IW.bits, decide_eq_true_eq] at h ⊢ <;>
    norm_num at h ⊢ <;> omega

/-! ## Characterization of the incremental strconv digit loop -/

/-- The accumulator never decreases along the digit run. -/
theorem digitPrefixVal_ge (l : List Char) : ∀ n, n ≤ digitPrefixVal n l := by
  induction l with
  | nil => intro n; simp [digitPrefixVal]
  | cons c r ih =>
    intro n
    by_cases hc : isDigitCh c = true
    · calc n ≤ n * 10 + (c.toNat - 48) := by omega
        _ ≤ digitPrefixVal (n * 10 + (c.toNat - 48)) r := ih _
        _ = digitPrefixVal n (c :: r) := by simp [digitPrefixVal, hc]
    · simp [digitPrefixVal, hc]

/-- Declarative description of `ParseUint`'s digit loop: a range error
exactly when the digit run overflows `uint64` (regardless of what
follows it), otherwise a syntax error at the first non-digit, otherwise
the exact value. -/
theorem goParseUintLoop_spec (l : List Char) :
    ∀ n, n ≤ 2 ^ 64 - 1 →
      goParseUintLoop n l =
        if 2 ^ 64 - 1 < digitPrefixVal n l then .error .range
        else if l.all isDigitCh then .ok (digitPrefixVal n l)
        else .error .parse := by
  induction l with
  | nil =>
    intro n hn
    have h1 : ¬ (2 ^ 64 - 1 < digitPrefixVal n []) := by
      simp only [digitPrefixVal]
      exact Nat.not_lt.mpr hn
    rw [show goParseUintLoop n [] = Except.ok n from rfl, if_neg h1]
    simp [digitPrefixVal]
  | cons c r ih =>
    intro n hn
    by_cases hc : isDigitCh c = true
    · have hdp : digitPrefixVal n (c :: r) = digitPrefixVal (n * 10 + (c.toNat - 48)) r := by
        simp [digitPrefixVal, hc]
      have hp64 : (2 : Nat) ^ 64 = 18446744073709551616 := by norm_num
      by_cases hcut : (2 ^ 64 - 1) / 10 + 1 ≤ n
      · have hov : 2 ^ 64 - 1 < digitPrefixVal n (c :: r) := by
          rw [hdp]
          have hge := digitPrefixVal_ge r (n * 10 + (c.toNat - 48))
          omega
        simp only [goParseUintLoop, if_pos hc, if_pos hcut, if_pos hov]
      · by_cases hadd : 2 ^ 64 - 1 < n * 10 + (c.toNat - 48)
        · have hov : 2 ^ 64 - 1 < digitPrefixVal n (c :: r) := by
            rw [hdp]
            have hge := digitPrefixVal_ge r (n * 10 + (c.toNat - 48))
            omega
          simp only [goParseUintLoop, if_pos hc, if_neg hcut, if_pos hadd, if_pos hov]
        · have hn1 : n * 10 + (c.toNat - 48) ≤ 2 ^ 64 - 1 := by omega
          have hall : (c :: r).all isDigitCh = r.all isDigitCh := by
            simp [List.all_cons, hc]
          simp only [goParseUintLoop, if_pos hc, if_neg hcut, if_neg hadd,
            ih (n * 10 + (c.toNat - 48)) hn1, hdp, hall]
    · have hdp : digitPrefixVal n (c :: r) = n := by simp [digitPrefixVal, hc]
      have hall : (c :: r).all isDigitCh = false := by simp [List.all_cons, hc]
      simp only [goParseUintLoop, if_neg hc, hdp, hall]
      rw [if_neg (Nat.not_lt.mpr hn)]
      simp

/-- A successful reference-grammar evaluation means an all-digit string
with the prefix value. -/
theorem decValAcc_all_digits (l : List Char) :
    ∀ n v, decValAcc n l = some v → l.all isDigitCh = true ∧ digitPrefixVal n l = v := by
  induction l with
  | nil =>
    intro n v h
    simp only [decValAcc, Option.some_inj] at h
    simp [digitPrefixVal, h]
  | cons c r ih =>
    intro n v h
    simp only [decValAcc] at h
    by_cases hc : isDigitCh c = true
    · rw [if_pos hc] at h
      obtain ⟨hall, hval⟩ := ih _ v h
      simp [List.all_cons, hc, hall, digitPrefixVal, hval]
    · rw [if_neg hc] at h
      exact absurd h (by simp)

/-- A failed reference-grammar evaluation means a non-digit occurs. -/
theorem decValAcc_none_not_all (l : List Char) :
    ∀ n, decValAcc n l = none → l.all isDigitCh = false := by
  induction l with
  | nil => intro n h; simp [decValAcc] at h
  | cons c r ih =>
    intro n h
    simp only [decValAcc] at h
    by_cases hc : isDigitCh c = true
    · rw [if_pos hc] at h
      simp [List.all_cons, ih _ h]
    · simp [List.all_cons, hc]

/-- Declarative description of `strconv.ParseUint(s, 10, 64)`. -/
theorem goParseUint64_spec (l : List Char) :
    goParseUint64 l =
      if 2 ^ 64 - 1 < digitPrefixVal 0 l then .error .range
      else if l ≠ [] ∧ l.all isDigitCh then .ok (digitPrefixVal 0 l)
      else .error .parse := by
  cases l with
  | nil => simp [goParseUint64, digitPrefixVal]
  | cons c r =>
    rw [show goParseUint64 (c :: r) = goParseUintLoop 0 (c :: r) from rfl,
      goParseUintLoop_spec (c :: r) 0 (Nat.zero_le _)]
    by_cases hov : 2 ^ 64 - 1 < digitPrefixVal 0 (c :: r)
    · rw [if_pos hov, if_pos hov]
    · rw [if_neg hov, if_neg hov]
      by_cases hall : (c :: r).all isDigitCh = true
      · rw [if_pos hall, if_pos ⟨List.cons_ne_nil c r, hall⟩]
      · rw [if_neg hall, if_neg (by simp [hall])]

/-- On text inside the unsigned numeral grammar, the incremental parse
agrees with value-then-range-check. -/
theorem goParseUint64_eq_grammar (l : List Char) (v : Nat) (h : decDigitsVal l = some v) :
    goParseUint64 l = if fitsU 64 v then .ok v else .error .range := by
  cases l with
  | nil => simp [decDigitsVal] at h
  | cons c r =>
    have h' : decValAcc 0 (c :: r) = some v := by simpa [decDigitsVal] using h
    obtain ⟨hall, hval⟩ := decValAcc_all_digits (c :: r) 0 v h'
    rw [goParseUint64_spec, hval]
    have hp64 : (2 : Nat) ^ 64 = 18446744073709551616 := by norm_num
    by_cases hov : 2 ^ 64 - 1 < v
    · rw [if_pos hov, if_neg (by simp only [fitsU, decide_eq_true_eq]; omega)]
    · rw [if_neg hov, if_pos ⟨List.cons_ne_nil c r, hall⟩,
        if_pos (by simp only [fitsU, decide_eq_true_eq]; omega)]

/-- On text outside the unsigned numeral grammar, the incremental parse
reports a range error exactly when the leading digit run overflows, and
a syntax error otherwise. -/
theorem goParseUint64_none_grammar (l : List Char) (h : decDigitsVal l = none) :
    goParseUint64 l = if uintPrefixOverflow l then .error .range else .error .parse := by
  cases l with
  | nil => simp [goParseUint64, uintPrefixOverflow, digitPrefixVal]
  | cons c r =>
    have h' : decValAcc 0 (c :: r) = none := by simpa [decDigitsVal] using h
    have hall : (c :: r).all isDigitCh = false := decValAcc_none_not_all (c :: r) 0 h'
    rw [goParseUint64_spec]
    by_cases hov : 2 ^ 64 - 1 < digitPrefixVal 0 (c :: r)
    · rw [if_pos hov, if_pos (by simpa [uintPrefixOverflow] using hov)]
    · rw [if_neg hov, if_neg (by simp [hall]),
        if_neg (by simpa [uintPrefixOverflow] using hov)]

/-- `ParseInt` on a leading `+` sign, reduced. -/
theorem goParseInt64_cons_plus (r : List Char) :
    goParseInt64 ('+' :: r) =
      match goParseUint64 r with
      | .error e => .error e
      | .ok un => if 2 ^ 63 ≤ un then .error .range else .ok ((un : Nat) : Int) := rfl

/-- `ParseInt` on a leading `-` sign, reduced. -/
theorem goParseInt64_cons_minus (r : List Char) :
    goParseInt64 ('-' :: r) =
      match goParseUint64 r with
      | .error e => .error e
      | .ok un => if 2 ^ 63 < un then .error .range else .ok (-((un : Nat) : Int)) := rfl

/-- `ParseInt` with no leading sign, reduced. -/
theorem goParseInt64_cons_nosign (c : Char) (r : List Char)
    (hplus : ¬ c = '+') (hminus : ¬ c = '-') :
    goParseInt64 (c :: r) =
      match goParseUint64 (c :: r) with
      | .error e => .error e
      | .ok un => if 2 ^ 63 ≤ un then .error .range else .ok ((un : Nat) : Int) := by
  simp only [goParseInt64, decide_eq_false hminus, if_neg (not_or.mpr ⟨hplus, hminus⟩)]
  rfl

/-- The signed 64-bit window, with the powers evaluated. -/
theorem fitsI64_true_iff (v : Int) :
    fitsI 64 v = true ↔ (-9223372036854775808 ≤ v ∧ v < 9223372036854775808) := by
  simp only [fitsI, Bool.and_eq_true, decide_eq_true_eq]
  norm_num

/-- The unsigned 64-bit window, with the power evaluated. -/
theorem fitsU64_true_iff (v : Nat) : fitsU 64 v = true ↔ v < 18446744073709551616 := by
  simp only [fitsU, decide_eq_true_eq]
  norm_num

/-- The unsigned result combined with the signed 64-bit cutoff, positive
case: equivalent to a `fitsI 64` check on the value. -/
theorem signedCutoff_pos (r : List Char) (n : Nat) (hn : decDigitsVal r = some n) :
    (match goParseUint64 r with
      | .error e => (.error e : Except DErr Int)
      | .ok un => if 2 ^ 63 ≤ un then .error .range else .ok ((un : Nat) : Int)) =
      if fitsI 64 ((n : Nat) : Int) then .ok ((n : Nat) : Int) else .error .range := by
  have h63 : (2 : Nat) ^ 63 = 9223372036854775808 := by norm_num
  rw [goParseUint64_eq_grammar r n hn]
  by_cases hfit : fitsU 64 n = true
  · rw [if_pos hfit]
    show (if 2 ^ 63 ≤ n then (.error .range : Except DErr Int)
        else .ok ((n : Nat) : Int)) = _
    by_cases hbig : 2 ^ 63 ≤ n
    · have hf : fitsI 64 ((n : Nat) : Int) = false := by
        rw [Bool.eq_false_iff]
        intro hx
        rw [fitsI64_true_iff] at hx
        omega
      rw [if_pos hbig, hf]
      simp
    · have ht : fitsI 64 ((n : Nat) : Int) = true := by
        rw [fitsI64_true_iff]
        omega
      rw [if_neg hbig, ht]
      simp
  · rw [if_neg hfit]
    show (.error .range : Except DErr Int) = _
    have hge : 18446744073709551616 ≤ n := by
      by_contra hcon
      push_neg at hcon
      exact hfit ((fitsU64_true_iff n).mpr hcon)
    have hf : fitsI 64 ((n : Nat) : Int) = false := by
      rw [Bool.eq_false_iff]
      intro hx
      rw [fitsI64_true_iff] at hx
      omega
    rw [hf]
    simp

/-- The unsigned result combined with the signed 64-bit cutoff, negative
case. -/
theorem signedCutoff_neg (r : List Char) (n : Nat) (hn : decDigitsVal r = some n) :
    (match goParseUint64 r with
      | .error e => (.error e : Except DErr Int)
      | .ok un => if 2 ^ 63 < un then .error .range else .ok (-((un : Nat) : Int))) =
      if fitsI 64 (-((n : Nat) : Int)) then .ok (-((n : Nat) : Int)) else .error .range := by
  have h63 : (2 : Nat) ^ 63 = 9223372036854775808 := by norm_num
  rw [goParseUint64_eq_grammar r n hn]
  by_cases hfit : fitsU 64 n = true
  · rw [if_pos hfit]
    show (if 2 ^ 63 < n then (.error .range : Except DErr Int)
        else .ok (-((n : Nat) : Int))) = _
    by_cases hbig : 2 ^ 63 < n
    · have hf : fitsI 64 (-((n : Nat) : Int)) = false := by
        rw [Bool.eq_false_iff]
        intro hx
        rw [fitsI64_true_iff] at hx
        omega
      rw [if_pos hbig, hf]
      simp
    · have ht : fitsI 64 (-((n : Nat) : Int)) = true := by
        rw [fitsI64_true_iff]
        omega
      rw [if_neg hbig, ht]
      simp
  · rw [if_neg hfit]
    show (.error .range : Except DErr Int) = _
    have hge : 18446744073709551616 ≤ n := by
      by_contra hcon
      push_neg at hcon
      exact hfit ((fitsU64_true_iff n).mpr hcon)
    have hf : fitsI 64 (-((n : Nat) : Int)) = false := by
      rw [Bool.eq_false_iff]
      intro hx
      rw [fitsI64_true_iff] at hx
      omega
    rw [hf]
    simp

/-- On text inside the signed numeral grammar, the incremental parse
agrees with value-then-range-check against the signed 64-bit range. -/
theorem goParseInt64_eq_grammar (l : List Char) (v : Int) (h : intGrammar l = some v) :
    goParseInt64 l = if fitsI 64 v then .ok v else .error .range := by
  cases l with
  | nil => simp [intGrammar] at h
  | cons c r =>
    simp only [intGrammar] at h
    by_cases hplus : c = '+'
    · rw [if_pos hplus] at h
      subst hplus
      cases hd : decDigitsVal r with
      | none => rw [hd] at h; simp at h
      | some n =>
        rw [hd] at h
        simp at h
        rw [goParseInt64_cons_plus, signedCutoff_pos r n hd, h]
    · rw [if_neg hplus] at h
      by_cases hminus : c = '-'
      · rw [if_pos hminus] at h
        subst hminus
        cases hd : decDigitsVal r with
        | none => rw [hd] at h; simp at h
        | some n =>
          rw [hd] at h
          simp at h
          rw [goParseInt64_cons_minus, signedCutoff_neg r n hd, h]
      · rw [if_neg hminus] at h
        cases hd : decDigitsVal (c :: r) with
        | none => rw [hd] at h; simp at h
        | some n =>
          rw [hd] at h
          simp at h
          rw [goParseInt64_cons_nosign c r hplus hminus, signedCutoff_pos (c :: r) n hd, h]

/-- On text outside the signed numeral grammar, the incremental parse
reports a range error exactly when the digit run after the optional sign
overflows, and a syntax error otherwise. -/
theorem goParseInt64_none_grammar (l : List Char) (h : intGrammar l = none) :
    goParseInt64 l = if intPrefixOverflow l then .error .range else .error .parse := by
  cases l with
  | nil => simp [goParseInt64, intPrefixOverflow]
  | cons c r =>
    simp only [intGrammar] at h
    by_cases hplus : c = '+'
    · rw [if_pos hplus] at h
      subst hplus
      have hd : decDigitsVal r = none := by
        cases hd : decDigitsVal r with
        | none => rfl
        | some n => rw [hd] at h; simp at h
      rw [goParseInt64_cons_plus, goParseUint64_none_grammar r hd,
        show intPrefixOverflow ('+' :: r) = uintPrefixOverflow r from by
          simp [intPrefixOverflow]]
      by_cases hov : uintPrefixOverflow r = true
      · rw [if_pos hov, if_pos hov]
      · rw [if_neg hov, if_neg hov]
    · rw [if_neg hplus] at h
      by_cases hminus : c = '-'
      · rw [if_pos hminus] at h
        subst hminus
        have hd : decDigitsVal r = none := by
          cases hd : decDigitsVal r with
          | none => rfl
          | some n => rw [hd] at h; simp at h
        rw [goParseInt64_cons_minus, goParseUint64_none_grammar r hd,
          show intPrefixOverflow ('-' :: r) = uintPrefixOverflow r from by
            simp [intPrefixOverflow]]
        by_cases hov : uintPrefixOverflow r = true
        · rw [if_pos hov, if_pos hov]
        · rw [if_neg hov, if_neg hov]
      · rw [if_neg hminus] at h
        have hd : decDigitsVal (c :: r) = none := by
          cases hd : decDigitsVal (c :: r) with
          | none => rfl
          | some n => rw [hd] at h; simp at h
        rw [goParseInt64_cons_nosign c r hplus hminus,
          goParseUint64_none_grammar (c :: r) hd,
          show intPrefixOverflow (c :: r) = uintPrefixOverflow (c :: r) from by
            simp [intPrefixOverflow, not_or.mpr ⟨hplus, hminus⟩]]
        by_cases hov : uintPrefixOverflow (c :: r) = true
        · rw [if_pos hov, if_pos hov]
        · rw [if_neg hov, if_neg hov]

/-- C3 counterexample: `strconv.ParseBool` also accepts `"True"`, an
eleventh token outside the claimed ten-token set, so `Set` on a boolean
slot does not fail on every input other than those ten. -/
theorem c3_counterexample :
    decodePrim trivialFloatOps (fun _ => none) PrimTy.bool "True" = .ok (.bool true) ∧
    "True" ∉ ["true", "TRUE", "t", "T", "1", "false", "FALSE", "f", "F", "0"] :=
  ⟨rfl, by decide⟩

/-- C3 amended: `Set` on a boolean slot succeeds exactly on the twelve
tokens of `strconv.ParseBool`, `{1, t, T, true, TRUE, True}` for true and
`{0, f, F, false, FALSE, False}` for false, and fails with a parse error
on every other string, including `"yes"` and `"no"`. -/
theorem c3_bool_grammar (fops : FloatOps) (jd : String → Option SVal) (s : String) :
    (decodePrim fops jd PrimTy.bool s = .ok (.bool true) ↔
      s ∈ ["1", "t", "T", "true", "TRUE", "True"]) ∧
    (decodePrim fops jd PrimTy.bool s = .ok (.bool false) ↔
      s ∈ ["0", "f", "F", "false", "FALSE", "False"]) ∧
    (s ∉ ["1", "t", "T", "true", "TRUE", "True",
          "0", "f", "F", "false", "FALSE", "False"] →
      decodePrim fops jd PrimTy.bool s = .error .parse) ∧
    decodePrim fops jd PrimTy.bool "yes" = .error .parse ∧
    decodePrim fops jd PrimTy.bool "no" = .error .parse := by
  refine ⟨?_, ?_, ?_, rfl, rfl⟩ <;>
    by_cases hmem : s ∈ (["1", "t", "T", "true", "TRUE", "True",
        "0", "f", "F", "false", "FALSE", "False"] : List String)
  case pos =>
    simp only [List.mem_cons, List.not_mem_nil, or_false] at hmem
    rcases hmem with rfl | rfl | rfl | rfl | rfl | rfl | rfl | rfl | rfl | rfl | rfl | rfl <;>
      simp [decodePrim, goParseBool]
  case neg =>
    have hm := hmem
    simp only [List.mem_cons, List.not_mem_nil, or_false, not_or] at hm
    obtain ⟨h1, h2, h3, h4, h5, h6, h7, h8, h9, h10, h11, h12⟩ := hm
    simp [decodePrim, goParseBool, h1, h2, h3, h4, h5, h6, h7, h8, h9, h10, h11, h12]
  case pos =>
    simp only [List.mem_cons, List.not_mem_nil, or_false] at hmem
    rcases hmem with rfl | rfl | rfl | rfl | rfl | rfl | rfl | rfl | rfl | rfl | rfl | rfl <;>
      simp [decodePrim, goParseBool]
  case neg =>
    have hm := hmem
    simp only [List.mem_cons, List.not_mem_nil, or_false, not_or] at hm
    obtain ⟨h1, h2, h3, h4, h5, h6, h7, h8, h9, h10, h11, h12⟩ := hm
    simp [decodePrim, goParseBool, h1, h2, h3, h4, h5, h6, h7, h8, h9, h10, h11, h12]
  case pos =>
    intro habs
    exact absurd hmem habs
  case neg =>
    intro _
    have hm := hmem
    simp only [List.mem_cons, List.not_mem_nil, or_false, not_or] at hm
    obtain ⟨h1, h2, h3, h4, h5, h6, h7, h8, h9, h10, h11, h12⟩ := hm
    simp [decodePrim, goParseBool, h1, h2, h3, h4, h5, h6, h7, h8, h9, h10, h11, h12]

/-- C4 counterexample: `"99999999999999999999x"` is not a base-10
numeral - it is outside both integer grammars - yet `Set` into an 8-bit
(or any) integer slot fails with a RANGE error, not a parse error:
strconv's incremental overflow check trips on the 20-digit run before the
invalid `x` is ever examined.  This falsifies the claim's assertion that
text that is not a base-10 integer fails with a parse error. -/
theorem c4_counterexample :
    intGrammar ("99999999999999999999x" : String).data = none ∧
    decDigitsVal ("99999999999999999999x" : String).data = none ∧
    decodePrim trivialFloatOps (fun _ => none) (PrimTy.int .w8)
      "99999999999999999999x" = .error .range ∧
    decodePrim trivialFloatOps (fun _ => none) (PrimTy.uint .w8)
      "99999999999999999999x" = .error .range ∧
    DErr.range ≠ DErr.parse :=
  ⟨rfl, rfl, rfl, rfl, by decide⟩

/-- C4 amended: for every signed or unsigned integer width, `Set` on
text in the base-10 numeral grammar stores the value when it fits the
width and fails with a range error when it does not (whether the 64-bit
parse or the width check catches it); `Set` on text outside the grammar
fails with a parse error, except that text whose leading digit run
(after the optional sign, for signed slots) already overflows the 64-bit
range fails with a range error, strconv's incremental check reporting
the overflow before it reaches the first invalid character. -/
theorem c4_int_overflow (fops : FloatOps) (jd : String → Option SVal) (w : IW) (s : String) :
    (∀ v : Int, intGrammar s.data = some v →
      decodePrim fops jd (PrimTy.int w) s =
        if fitsI w.bits v then .ok (.int w v) else .error .range) ∧
    (intGrammar s.data = none →
      decodePrim fops jd (PrimTy.int w) s =
        if intPrefixOverflow s.data then .error .range else .error .parse) ∧
    (∀ v : Nat, decDigitsVal s.data = some v →
      decodePrim fops jd (PrimTy.uint w) s =
        if fitsU w.bits v then .ok (.uint w v) else .error .range) ∧
    (decDigitsVal s.data = none →
      decodePrim fops jd (PrimTy.uint w) s =
        if uintPrefixOverflow s.data then .error .range else .error .parse) := by
  refine ⟨?_, ?_, ?_, ?_⟩
  · intro v hv
    simp only [decodePrim, goParseInt64_eq_grammar s.data v hv]
    by_cases h64 : fitsI 64 v = true
    · rw [if_pos h64]
    · rw [if_neg h64]
      have hw : fitsI w.bits v = false := by
        cases hwb : fitsI w.bits v
        · rfl
        · exact absurd (fitsI_mono w v hwb) h64
      rw [hw]
      rfl
  · intro hv
    simp only [decodePrim, goParseInt64_none_grammar s.data hv]
    by_cases hov : intPrefixOverflow s.data = true
    · rw [if_pos hov, if_pos hov]
    · rw [if_neg hov, if_neg hov]
  · intro v hv
    simp only [decodePrim, goParseUint64_eq_grammar s.data v hv]
    by_cases h64 : fitsU 64 v = true
    · rw [if_pos h64]
    · rw [if_neg h64]
      have hw : fitsU w.bits v = false := by
        cases hwb : fitsU w.bits v
        · rfl
        · exact absurd (fitsU_mono w v hwb) h64
      rw [hw]
      rfl
  · intro hv
    simp only [decodePrim, goParseUint64_none_grammar s.data hv]
    by_cases hov : uintPrefixOverflow s.data = true
    · rw [if_pos hov, if_pos hov]
    · rw [if_neg hov, if_neg hov]

/-- Witness for the amended C4 theorem: `"555"` is an in-grammar numeral
that overflows 8 bits (range error from the width check), and the
overflowing-prefix text `"99999999999999999999x"` takes the
out-of-grammar range branch. -/
theorem c4_witness :
    intGrammar ("555" : String).data = some 555 ∧ fitsI IW.w8.bits 555 = false ∧
    decodePrim trivialFloatOps (fun _ => none) (PrimTy.int .w8) "555" =
      (if fitsI IW.w8.bits 555 then .ok (.int .w8 555) else .error .range) ∧
    intGrammar ("99999999999999999999x" : String).data = none ∧
    intPrefixOverflow ("99999999999999999999x" : String).data = true ∧
    decodePrim trivialFloatOps (fun _ => none) (PrimTy.int .w8) "99999999999999999999x" =
      (if intPrefixOverflow ("99999999999999999999x" : String).data then .error .range
        else .error .parse) :=
  ⟨rfl, by decide,
    (c4_int_overflow trivialFloatOps (fun _ => none) .w8 "555").1 555 rfl,
    rfl, by decide,
    (c4_int_overflow trivialFloatOps (fun _ => none) .w8 "99999999999999999999x").2.1 rfl⟩

/-- C5: whenever `Set` returns an error, the bound slot is observably
unchanged: the slot itself is identical and the value seen through it
(directly or through its pointer) is the same, for every slot kind and
input, under any structured codec.  The fresh cell `reflect.New`
allocated in the pointer case stays unreachable. -/
theorem c5_no_partial_write (fops : FloatOps) (jd : String → Option SVal) (s : String)
    (sl : Slot) (h : Heap) (e : DErr) (hwf : SlotWF sl h)
    (herr : (decodeString fops jd s sl h).1 = some e) :
    (decodeString fops jd s sl h).2.1 = sl ∧
    obsVal sl (decodeString fops jd s sl h).2.2 = obsVal sl h := by
  cases sl with
  | prim p =>
    simp only [decodeString] at herr ⊢
    cases hd : decodePrim fops jd p.ty s with
    | ok q => rw [hd] at herr; simp at herr
    | error e' => exact ⟨rfl, rfl⟩
  | ptr ty r =>
    simp only [decodeString] at herr ⊢
    cases hd : decodePrim fops jd ty s with
    | ok q =>
      rw [hd] at herr
      cases r <;> simp at herr
    | error e' =>
      refine ⟨rfl, ?_⟩
      cases r with
      | none => rfl
      | some a0 =>
        have ha : a0 < h.length := hwf
        simp only [obsVal]
        rw [List.getElem?_append]
        simp [ha]

/-- Witness for C5: a failing parse through a non-nil pointer slot leaves
the slot and its target untouched. -/
theorem c5_witness :
    SlotWF (.ptr (PrimTy.int .w8) (some 0)) [Prim.int .w8 7] ∧
    (decodeString trivialFloatOps (fun _ => none) "x" (.ptr (PrimTy.int .w8) (some 0))
      [Prim.int .w8 7]).1 = some .parse ∧
    (decodeString trivialFloatOps (fun _ => none) "x" (.ptr (PrimTy.int .w8) (some 0))
      [Prim.int .w8 7]).2.1 = .ptr (PrimTy.int .w8) (some 0) ∧
    obsVal (.ptr (PrimTy.int .w8) (some 0))
      (decodeString trivialFloatOps (fun _ => none) "x" (.ptr (PrimTy.int .w8) (some 0))
        [Prim.int .w8 7]).2.2 =
      obsVal (.ptr (PrimTy.int .w8) (some 0)) [Prim.int .w8 7] :=
  ⟨by decide, rfl,
    (c5_no_partial_write trivialFloatOps (fun _ => none) "x" (.ptr (PrimTy.int .w8) (some 0))
      [Prim.int .w8 7] .parse (by decide) rfl).1,
    (c5_no_partial_write trivialFloatOps (fun _ => none) "x" (.ptr (PrimTy.int .w8) (some 0))
      [Prim.int .w8 7] .parse (by decide) rfl).2⟩

/-- C6: `String` on a nil single-level reference renders the empty
string, and a successful `Set` into a nil reference slot allocates a
fresh cell, stores the parsed value there, and leaves the slot holding a
non-nil reference to it. -/
theorem c6_nil_ref (fops : FloatOps) (jd : String → Option SVal) (je : SVal → Option String)
    (ty : PrimTy) (s : String) (h : Heap) (q : Prim)
    (hok : decodePrim fops jd ty s = .ok q) :
    encodeString fops je (.ptr ty none) h = some "" ∧
    (decodeString fops jd s (.ptr ty none) h).1 = none ∧
    (decodeString fops jd s (.ptr ty none) h).2.1 = .ptr ty (some h.length) ∧
    obsVal (.ptr ty (some h.length)) (decodeString fops jd s (.ptr ty none) h).2.2 = some q := by
  refine ⟨rfl, ?_, ?_, ?_⟩
  · simp only [decodeString, hok]
  · simp only [decodeString, hok]
  · simp only [decodeString, hok, obsVal]
    have hlen : h.length < (h ++ [ty.zero]).length := by simp
    simp [List.getElem?_set_eq_of_lt _ hlen]

/-- Witness for C6: parsing `"42"` into a nil `*int8` slot allocates and
stores 42 behind a fresh non-nil reference. -/
theorem c6_witness :
    decodePrim trivialFloatOps (fun _ => none) (PrimTy.int .w8) "42" = .ok (.int .w8 42) ∧
    (encodeString trivialFloatOps (fun _ => none) (.ptr (PrimTy.int .w8) none) [] = some "" ∧
      (decodeString trivialFloatOps (fun _ => none) "42" (.ptr (PrimTy.int .w8) none) []).1 = none ∧
      (decodeString trivialFloatOps (fun _ => none) "42" (.ptr (PrimTy.int .w8) none) []).2.1 =
        .ptr (PrimTy.int .w8) (some 0) ∧
      obsVal (.ptr (PrimTy.int .w8) (some 0))
        (decodeString trivialFloatOps (fun _ => none) "42" (.ptr (PrimTy.int .w8) none) []).2.2 =
        some (.int .w8 42)) :=
  ⟨rfl, c6_nil_ref trivialFloatOps (fun _ => none) (fun _ => none) (PrimTy.int .w8) "42" [] (.int .w8 42) rfl⟩

/-- C7: a successful `Set` on a slot holding a non-nil reference writes
the parsed value through the existing reference: afterwards the slot
holds the same address as before and that address holds the parsed
value. -/
theorem c7_ref_identity (fops : FloatOps) (jd : String → Option SVal) (s : String)
    (ty : PrimTy) (a0 : Nat) (h : Heap) (q : Prim)
    (hok : decodePrim fops jd ty s = .ok q) (ha : a0 < h.length) :
    (decodeString fops jd s (.ptr ty (some a0)) h).1 = none ∧
    (decodeString fops jd s (.ptr ty (some a0)) h).2.1 = .ptr ty (some a0) ∧
    obsVal (.ptr ty (some a0)) (decodeString fops jd s (.ptr ty (some a0)) h).2.2 = some q := by
  refine ⟨?_, ?_, ?_⟩
  · simp only [decodeString, hok]
  · simp only [decodeString, hok]
  · simp only [decodeString, hok, obsVal]
    have ha' : a0 < ((h ++ [ty.zero]).set h.length q).length := by
      simp
      omega
    rw [List.getElem?_set_eq_of_lt q ha']

/-- Witness for C7: parsing `"42"` through a non-nil `*int8` reference
keeps the address and updates the cell. -/
theorem c7_witness :
    decodePrim trivialFloatOps (fun _ => none) (PrimTy.int .w8) "42" = .ok (.int .w8 42) ∧ 0 < 1 ∧
    ((decodeString trivialFloatOps (fun _ => none) "42" (.ptr (PrimTy.int .w8) (some 0))
        [Prim.int .w8 7]).1 = none ∧
      (decodeString trivialFloatOps (fun _ => none) "42" (.ptr (PrimTy.int .w8) (some 0))
        [Prim.int .w8 7]).2.1 = .ptr (PrimTy.int .w8) (some 0) ∧
      obsVal (.ptr (PrimTy.int .w8) (some 0))
        (decodeString trivialFloatOps (fun _ => none) "42" (.ptr (PrimTy.int .w8) (some 0))
          [Prim.int .w8 7]).2.2 = some (.int .w8 42)) :=
  ⟨rfl, by decide,
    c7_ref_identity trivialFloatOps (fun _ => none) "42" (PrimTy.int .w8) 0 [Prim.int .w8 7]
      (.int .w8 42) rfl (by decide)⟩

/-- C9 counterexample: the adapter of a nil reference-to-boolean slot
reports `IsBoolFlag` as false, because `reflect.Indirect` of a nil
pointer is the zero `Value` of kind `Invalid`; the claim says every
reference-to-boolean slot reports true. -/
theorem c9_counterexample :
    IsBoolFlag (.ptr PrimTy.bool none) = false ∧
    IsBoolFlag (.prim (.bool true)) = true :=
  ⟨rfl, rfl⟩

/-- C9 amended: `IsBoolFlag` is true exactly for boolean slots and
non-nil reference-to-boolean slots; a nil reference-to-boolean slot (and
every non-boolean slot) reports false. -/
theorem c9_isboolflag (sl : Slot) :
    IsBoolFlag sl = true ↔
      ((∃ b, sl = .prim (.bool b)) ∨ (∃ a, sl = .ptr PrimTy.bool (some a))) := by
  cases sl with
  | prim p => cases p <;> simp [IsBoolFlag]
  | ptr ty r => cases r <;> cases ty <;> simp [IsBoolFlag]

/-- Witness for the amended C3 theorem: `"yes"` is outside the twelve
tokens and fails with a parse error. -/
theorem c3_witness :
    ("yes" ∉ ["1", "t", "T", "true", "TRUE", "True",
        "0", "f", "F", "false", "FALSE", "False"]) ∧
    decodePrim trivialFloatOps (fun _ => none) PrimTy.bool "yes" = .error .parse :=
  ⟨by decide, (c3_bool_grammar trivialFloatOps (fun _ => none) "yes").2.2.1 (by decide)⟩

end Structflag
